import Mathlib

/-!
# Verification of the `flaken` Snowflake-style id generator

Shallow embedding of `src/lib.rs` (crate `flaken`).  Machine integers
(`u64`) are modelled as `Nat` values; wrapping is written explicitly as
`% 2^64` where the Rust semantics wraps (value bits shifted out of a
left shift).  Operations that are fatal in Rust — a failed `assert!`,
an overflowing checked addition, or a shift whose *amount* is ≥ 64
(an overflow "program error" in Rust, a panic with debug assertions
enabled) — are modelled as `Option` results, `none` meaning the fatal
path was taken.  The monotonic clock (`Instant::elapsed`) is modelled
as an explicit input `e` (elapsed milliseconds) to `next`.
-/

/-- The binary mask helper of `src/lib.rs` (`fn bitmask`):
`0xFFFFFFFFFFFFFFFF << left_shift` on `u64`.  A shift amount ≥ 64 is a
fatal overflow in Rust, hence `none`. -/
def bitmask (left_shift : Nat) : Option Nat :=
  if left_shift < 64 then some ((0xFFFFFFFFFFFFFFFF <<< left_shift) % 2 ^ 64)
  else none

/-- The `Flaken` generator state (`struct Flaken` in `src/lib.rs`).
`start_instant` is the opaque monotonic-clock anchor captured at
construction; elapsed time relative to it is an input of `next`. -/
structure Flaken where
  node : Nat
  epoch : Nat
  bitwidths : Nat × Nat × Nat
  seq : Nat
  start_ts : Nat
  start_instant : Nat
  duration : Nat
  deriving DecidableEq, Repr

/-- `Flaken::default()`: the wall-clock reading (`since_unix.as_millis()`)
and the monotonic anchor are taken as parameters, everything else is
the source's literal defaults. -/
def Flaken.default (since_unix_ms : Nat) (instant : Nat) : Flaken :=
  { node := 0
    seq := 0
    epoch := 1356998400000
    bitwidths := (42, 10, 12)
    start_ts := since_unix_ms
    start_instant := instant
    duration := 0 }

/-- `Flaken::epoch` (builder setter). -/
def Flaken.with_epoch (f : Flaken) (epoch : Nat) : Flaken :=
  { f with epoch := epoch }

/-- `Flaken::node` (builder setter). -/
def Flaken.with_node (f : Flaken) (node : Nat) : Flaken :=
  { f with node := node }

/-- `Flaken::bitwidths` (builder setter): `assert!(ts_bits + node_bits < 64)`
then stores `(ts_bits, node_bits, 64-(ts_bits+node_bits))`.  A failed
assert (including a `u64` overflow of the checked sum) is `none`. -/
def Flaken.with_bitwidths (f : Flaken) (ts_bits node_bits : Nat) : Option Flaken :=
  if ts_bits + node_bits < 64 then
    some { f with bitwidths := (ts_bits, node_bits, 64 - (ts_bits + node_bits)) }
  else none

/-- `Flaken::encode`.  Mirrors the source line by line: the
`assert!(ts >= self.epoch)`, then the three masks (each a potential
shift-overflow, in source order), then the shift/mask/or expression. -/
def Flaken.encode (f : Flaken) (ts node seq : Nat) : Option Nat :=
  if ts < f.epoch then none
  else
    let ts0 := ts - f.epoch
    let node_shift := f.bitwidths.2.1
    let seq_shift := f.bitwidths.2.2
    match bitmask (node_shift + seq_shift) with
    | none => none
    | some ts_mask =>
      match bitmask seq_shift with
      | none => none
      | some m1 =>
        let node_mask := m1 ^^^ ts_mask
        match bitmask 0 with
        | none => none
        | some m0 =>
          let seq_mask := (m0 ^^^ ts_mask) ^^^ node_mask
          some ((((ts0 <<< (node_shift + seq_shift)) % 2 ^ 64) &&& ts_mask) |||
                (((node <<< seq_shift) % 2 ^ 64) &&& node_mask) |||
                (seq &&& seq_mask))

/-- `Flaken::decode`.  Masks as in `encode`; the final
`ts + self.epoch` is a checked `u64` addition. -/
def Flaken.decode (f : Flaken) (id : Nat) : Option (Nat × Nat × Nat) :=
  let node_shift := f.bitwidths.2.1
  let seq_shift := f.bitwidths.2.2
  match bitmask (node_shift + seq_shift) with
  | none => none
  | some ts_mask =>
    match bitmask seq_shift with
    | none => none
    | some m1 =>
      let node_mask := m1 ^^^ ts_mask
      match bitmask 0 with
      | none => none
      | some m0 =>
        let seq_mask := (m0 ^^^ ts_mask) ^^^ node_mask
        let ts := (id &&& ts_mask) >>> (node_shift + seq_shift)
        let node := (id &&& node_mask) >>> seq_shift
        let seq := id &&& seq_mask
        if ts + f.epoch < 2 ^ 64 then some (ts + f.epoch, node, seq) else none

/-- `Flaken::next`, with the elapsed monotonic milliseconds `e` as
input.  Source order: window compare/reset, checked `start_ts + e`,
`encode`, then the state updates (`duration`, checked `seq + 1`). -/
def Flaken.next (f : Flaken) (e : Nat) : Option (Flaken × Nat) :=
  let seq0 := if e ≠ f.duration then 0 else f.seq
  if f.start_ts + e < 2 ^ 64 then
    match f.encode (f.start_ts + e) f.node seq0 with
    | none => none
    | some id =>
      if seq0 + 1 < 2 ^ 64 then
        some ({ f with duration := e, seq := seq0 + 1 }, id)
      else none
  else none

/-- Well-formed bitwidth triples: exactly those reachable through the
constructor or an accepted `bitwidths` builder call. -/
def WFbits (bw : Nat × Nat × Nat) : Prop :=
  bw.1 + bw.2.1 < 64 ∧ bw.2.2 = 64 - (bw.1 + bw.2.1)

instance (bw : Nat × Nat × Nat) : Decidable (WFbits bw) := by
  unfold WFbits; infer_instance

example : WFbits (42, 10, 12) := by decide

/-- The zero-timestamp-bits generator: reachable through the builders
(`0 + 10 < 64` passes the assert) yet fatal for `encode`/`decode`,
whose mask construction then shifts by `node_bits + seq_bits = 64`. -/
def gZero : Flaken :=
  { node := 0, epoch := 0, bitwidths := (0, 10, 54), seq := 0,
    start_ts := 0, start_instant := 0, duration := 0 }

/-- A small concrete generator used for witnesses: default bitwidths
`(42, 10, 12)`, epoch 0, anchored at wall time 0. -/
def fW : Flaken := (Flaken.default 0 0).with_epoch 0

/-- State of `fW` after one `next` call in window 0. -/
def f1W : Flaken := { fW with duration := 0, seq := 1 }

/-! ## Bit-level helper lemmas

The three field masks of `encode`/`decode` are "mid masks"
`2 ^ hi - 2 ^ lo` (bits `[lo, hi)` set).  The lemmas below give closed
forms for the mask values and for AND / shift combinations with them. -/

lemma mask_factor (s t : Nat) (h : s ≤ t) :
    2 ^ t - 2 ^ s = (2 ^ (t - s) - 1) * 2 ^ s := by
  rw [Nat.sub_mul, one_mul, ← Nat.pow_add, Nat.sub_add_cancel h]

lemma testBit_mask (s t j : Nat) (h : s ≤ t) :
    (2 ^ t - 2 ^ s).testBit j = (decide (s ≤ j) && decide (j < t)) := by
  rw [mask_factor s t h, Nat.mul_comm, Nat.testBit_mul_pow_two,
    Nat.testBit_two_pow_sub_one]
  by_cases hs : s ≤ j <;> by_cases ht : j < t <;>
    simp [ge_iff_le, hs, ht] <;> omega

lemma xor_mask (T s t : Nat) (hst : s ≤ t) (htT : t ≤ T) :
    (2 ^ T - 2 ^ s) ^^^ (2 ^ T - 2 ^ t) = 2 ^ t - 2 ^ s := by
  apply Nat.eq_of_testBit_eq
  intro j
  rw [Nat.testBit_xor, testBit_mask s T j (le_trans hst htT),
    testBit_mask t T j htT, testBit_mask s t j hst]
  by_cases h1 : s ≤ j <;> by_cases h2 : t ≤ j <;> by_cases h3 : j < T <;>
    simp [h1, h2, h3] <;> omega

lemma bitmask_eq (s : Nat) (h : s < 64) : bitmask s = some (2 ^ 64 - 2 ^ s) := by
  unfold bitmask
  rw [if_pos h]
  congr 1
  have hlit : (0xFFFFFFFFFFFFFFFF : Nat) = 2 ^ 64 - 1 := by norm_num
  apply Nat.eq_of_testBit_eq
  intro j
  rw [Nat.testBit_mod_two_pow, Nat.testBit_shiftLeft, hlit,
    Nat.testBit_two_pow_sub_one, testBit_mask s 64 j (le_of_lt h)]
  by_cases h1 : j < 64 <;> by_cases h2 : s ≤ j <;>
    simp [ge_iff_le, h1, h2] <;> omega

lemma bitmask_none (s : Nat) (h : 64 ≤ s) : bitmask s = none := by
  unfold bitmask
  rw [if_neg (by omega)]

lemma land_mask (x lo w : Nat) :
    x &&& (2 ^ (lo + w) - 2 ^ lo) = x / 2 ^ lo % 2 ^ w * 2 ^ lo := by
  apply Nat.eq_of_testBit_eq
  intro j
  rw [Nat.testBit_and, testBit_mask lo (lo + w) j (Nat.le_add_right _ _),
    Nat.mul_comm, Nat.testBit_mul_pow_two, Nat.testBit_mod_two_pow,
    ← Nat.shiftRight_eq_div_pow, Nat.testBit_shiftRight]
  by_cases h1 : lo ≤ j
  · rw [Nat.add_sub_cancel' h1]
    have h3 : (j - lo < w) ↔ (j < lo + w) := by omega
    by_cases h2 : j < lo + w <;> simp [ge_iff_le, h1, h2, h3]
  · simp [ge_iff_le, h1]

lemma encode_component (x lo w T : Nat) {M : Nat} (hT : lo + w ≤ T)
    (hM : M = 2 ^ (lo + w) - 2 ^ lo) :
    ((x <<< lo) % 2 ^ T) &&& M = x % 2 ^ w * 2 ^ lo := by
  subst hM
  have hTsplit : 2 ^ T = 2 ^ (T - lo) * 2 ^ lo := by
    rw [← Nat.pow_add]
    congr 1
    omega
  have h1 : (x <<< lo) % 2 ^ T = x % 2 ^ (T - lo) * 2 ^ lo := by
    rw [Nat.shiftLeft_eq, hTsplit, Nat.mul_mod_mul_right]
  rw [h1, land_mask, Nat.mul_div_cancel _ (Nat.two_pow_pos lo),
    Nat.mod_mod_of_dvd x (Nat.pow_dvd_pow 2 (by omega))]

lemma decode_component (x lo w : Nat) {M : Nat} (hM : M = 2 ^ (lo + w) - 2 ^ lo) :
    (x &&& M) >>> lo = x / 2 ^ lo % 2 ^ w := by
  subst hM
  rw [land_mask, Nat.shiftRight_eq_div_pow,
    Nat.mul_div_cancel _ (Nat.two_pow_pos lo)]

lemma field_bound (N S b c : Nat) (hN : N < 2 ^ b) (hS : S < 2 ^ c) :
    N * 2 ^ c + S < 2 ^ (b + c) := by
  rw [Nat.pow_add]
  calc N * 2 ^ c + S < N * 2 ^ c + 2 ^ c := by omega
    _ = (N + 1) * 2 ^ c := by ring
    _ ≤ 2 ^ b * 2 ^ c := Nat.mul_le_mul_right _ hN

/-- Closed arithmetic form of `Flaken::encode` for a well-formed
bitwidth triple `(a, b, c)` with at least one timestamp bit. -/
theorem encode_closed (f : Flaken) (a b c : Nat) (hbw : f.bitwidths = (a, b, c))
    (hsum : a + b + c = 64) (ha : 1 ≤ a) (ts n s : Nat) (hts : f.epoch ≤ ts) :
    f.encode ts n s =
      some ((ts - f.epoch) % 2 ^ a * 2 ^ (b + c) + n % 2 ^ b * 2 ^ c + s % 2 ^ c) := by
  have hbc : b + c < 64 := by omega
  have hc : c < 64 := by omega
  have hmask1 : (2:Nat) ^ 64 - 2 ^ (b + c) = 2 ^ ((b + c) + a) - 2 ^ (b + c) := by
    have h : (b + c) + a = 64 := by omega
    rw [h]
  have hmask2 : ((2:Nat) ^ 64 - 2 ^ c) ^^^ (2 ^ 64 - 2 ^ (b + c)) =
      2 ^ (c + b) - 2 ^ c := by
    rw [xor_mask 64 c (b + c) (by omega) (by omega)]
    congr 2
    omega
  have hmask3 : (((2:Nat) ^ 64 - 2 ^ 0) ^^^ (2 ^ 64 - 2 ^ (b + c))) ^^^
      (2 ^ (c + b) - 2 ^ c) = 2 ^ c - 1 := by
    rw [xor_mask 64 0 (b + c) (by omega) (by omega),
      show ((2:Nat) ^ (c + b) - 2 ^ c) = 2 ^ (b + c) - 2 ^ c by rw [Nat.add_comm c b],
      xor_mask (b + c) 0 c (by omega) (by omega)]
    norm_num
  simp only [Flaken.encode, hbw, if_neg (by omega : ¬ ts < f.epoch),
    bitmask_eq (b + c) hbc, bitmask_eq c hc, bitmask_eq 0 (by omega)]
  rw [hmask2, hmask3]
  congr 1
  rw [encode_component (ts - f.epoch) (b + c) a 64 (by omega) hmask1,
    encode_component n c b 64 (by omega) (by rw [Nat.add_comm c b]),
    Nat.and_pow_two_sub_one_eq_mod]
  have hBlt : n % 2 ^ b * 2 ^ c < 2 ^ ((b + c)) := by
    exact field_bound _ 0 b c (Nat.mod_lt _ (Nat.two_pow_pos b)) (Nat.two_pow_pos c)
      |>.trans_le (by omega)
  have hClt : s % 2 ^ c < 2 ^ c := Nat.mod_lt _ (Nat.two_pow_pos c)
  rw [Nat.mul_comm ((ts - f.epoch) % 2 ^ a) (2 ^ (b + c)),
    ← Nat.mul_add_lt_is_or hBlt ((ts - f.epoch) % 2 ^ a)]
  have hfac : 2 ^ (b + c) * ((ts - f.epoch) % 2 ^ a) + n % 2 ^ b * 2 ^ c =
      2 ^ c * (2 ^ b * ((ts - f.epoch) % 2 ^ a) + n % 2 ^ b) := by
    rw [Nat.pow_add]
    ring
  rw [hfac, ← Nat.mul_add_lt_is_or hClt, ← hfac]

/-- Closed arithmetic form of `Flaken::decode` for a well-formed
bitwidth triple `(a, b, c)` with at least one timestamp bit. -/
theorem decode_closed (f : Flaken) (a b c : Nat) (hbw : f.bitwidths = (a, b, c))
    (hsum : a + b + c = 64) (ha : 1 ≤ a) (id : Nat) :
    f.decode id =
      if id / 2 ^ (b + c) % 2 ^ a + f.epoch < 2 ^ 64 then
        some (id / 2 ^ (b + c) % 2 ^ a + f.epoch, id / 2 ^ c % 2 ^ b, id % 2 ^ c)
      else none := by
  have hbc : b + c < 64 := by omega
  have hc : c < 64 := by omega
  have hmask1 : (2:Nat) ^ 64 - 2 ^ (b + c) = 2 ^ ((b + c) + a) - 2 ^ (b + c) := by
    have h : (b + c) + a = 64 := by omega
    rw [h]
  have hmask2 : ((2:Nat) ^ 64 - 2 ^ c) ^^^ (2 ^ 64 - 2 ^ (b + c)) =
      2 ^ (c + b) - 2 ^ c := by
    rw [xor_mask 64 c (b + c) (by omega) (by omega)]
    congr 2
    omega
  have hmask3 : (((2:Nat) ^ 64 - 2 ^ 0) ^^^ (2 ^ 64 - 2 ^ (b + c))) ^^^
      (2 ^ (c + b) - 2 ^ c) = 2 ^ c - 1 := by
    rw [xor_mask 64 0 (b + c) (by omega) (by omega),
      show ((2:Nat) ^ (c + b) - 2 ^ c) = 2 ^ (b + c) - 2 ^ c by rw [Nat.add_comm c b],
      xor_mask (b + c) 0 c (by omega) (by omega)]
    norm_num
  simp only [Flaken.decode, hbw, bitmask_eq (b + c) hbc, bitmask_eq c hc,
    bitmask_eq 0 (by omega)]
  rw [hmask2, hmask3]
  rw [decode_component id (b + c) a hmask1, decode_component id c b rfl,
    Nat.and_pow_two_sub_one_eq_mod]

/-- Extracting the three digit fields back out of a packed value. -/
lemma digits3 (t nn ss b c : Nat) (hn : nn < 2 ^ b) (hs : ss < 2 ^ c) :
    (t * 2 ^ (b + c) + nn * 2 ^ c + ss) / 2 ^ (b + c) = t ∧
    (t * 2 ^ (b + c) + nn * 2 ^ c + ss) / 2 ^ c % 2 ^ b = nn ∧
    (t * 2 ^ (b + c) + nn * 2 ^ c + ss) % 2 ^ c = ss := by
  have hcpos := Nat.two_pow_pos c
  have hbpos := Nat.two_pow_pos b
  have hE : t * 2 ^ (b + c) + nn * 2 ^ c + ss = 2 ^ c * (2 ^ b * t + nn) + ss := by
    rw [Nat.pow_add]
    ring
  have hdivc : (t * 2 ^ (b + c) + nn * 2 ^ c + ss) / 2 ^ c = 2 ^ b * t + nn := by
    rw [hE, Nat.mul_add_div hcpos, Nat.div_eq_of_lt hs, Nat.add_zero]
  refine ⟨?_, ?_, ?_⟩
  · have hsplit : (t * 2 ^ (b + c) + nn * 2 ^ c + ss) / 2 ^ (b + c)
        = (t * 2 ^ (b + c) + nn * 2 ^ c + ss) / 2 ^ c / 2 ^ b := by
      rw [Nat.div_div_eq_div_mul, ← Nat.pow_add, Nat.add_comm c b]
    rw [hsplit, hdivc, Nat.mul_add_div hbpos, Nat.div_eq_of_lt hn, Nat.add_zero]
  · rw [hdivc, Nat.mul_add_mod, Nat.mod_eq_of_lt hn]
  · rw [hE, Nat.mul_add_mod, Nat.mod_eq_of_lt hs]

/-- A successful `encode` implies the `assert!` passed and that the
timestamp field is at least one bit wide. -/
lemma encode_some_facts (f : Flaken) (a b c : Nat) (hbw : f.bitwidths = (a, b, c))
    (hsum : a + b + c = 64) (ts n s id : Nat) (h : f.encode ts n s = some id) :
    f.epoch ≤ ts ∧ 1 ≤ a := by
  by_cases hts : ts < f.epoch
  · simp only [Flaken.encode, if_pos hts] at h
    exact Option.noConfusion h
  · refine ⟨by omega, ?_⟩
    by_contra hA
    have hbc : 64 ≤ b + c := by omega
    simp only [Flaken.encode, if_neg hts, hbw, bitmask_none _ hbc] at h
    exact Option.noConfusion h

/-- With a zero-width timestamp field, `encode` always takes the fatal
shift-overflow path. -/
lemma encode_none_of_bc (f : Flaken) (a b c : Nat) (hbw : f.bitwidths = (a, b, c))
    (hbc : 64 ≤ b + c) (ts n s : Nat) : f.encode ts n s = none := by
  by_cases hts : ts < f.epoch
  · simp [Flaken.encode, hts]
  · simp [Flaken.encode, hts, hbw, bitmask_none _ hbc]

/-- With a zero-width timestamp field, `decode` always takes the fatal
shift-overflow path. -/
lemma decode_none_of_bc (f : Flaken) (a b c : Nat) (hbw : f.bitwidths = (a, b, c))
    (hbc : 64 ≤ b + c) (id : Nat) : f.decode id = none := by
  simp [Flaken.decode, hbw, bitmask_none _ hbc]

/-- Inversion of a successful `next` call: the encode equation and the
exact post-state. -/
lemma next_inv (f g : Flaken) (e id : Nat) (h : f.next e = some (g, id)) :
    f.encode (f.start_ts + e) f.node (if e ≠ f.duration then 0 else f.seq) = some id ∧
    g = { f with duration := e,
                 seq := (if e ≠ f.duration then 0 else f.seq) + 1 } := by
  simp only [Flaken.next] at h
  by_cases h64 : f.start_ts + e < 2 ^ 64
  · rw [if_pos h64] at h
    rcases henc : f.encode (f.start_ts + e) f.node
        (if e ≠ f.duration then 0 else f.seq) with _ | id'
    · rw [henc] at h
      simp only at h
      exact Option.noConfusion h
    · rw [henc] at h
      simp only at h
      by_cases hs : (if e ≠ f.duration then 0 else f.seq) + 1 < 2 ^ 64
      · rw [if_pos hs] at h
        simp only [Option.some.injEq, Prod.mk.injEq] at h
        exact ⟨by rw [h.2], h.1.symm⟩
      · rw [if_neg hs] at h
        exact Option.noConfusion h
  · rw [if_neg h64] at h
    exact Option.noConfusion h

example : (Flaken.default 0 0).encode 1356998400013 24 81 = some ((13 <<< 22) ||| (24 <<< 12) ||| 81) := by
  decide

example : bitmask 4 = some 0xFFFFFFFFFFFFFFF0 := by decide

example : bitmask 7 = some 0xFFFFFFFFFFFFFF80 := by decide

/-! ## Claims -/

/-- **C1** (counterexample to the claim as stated): bitwidths `(0, 10)`
are accepted by the builders, yet with `timestamp_bits = 0` the
round-trip law fails at in-range inputs — `encode` takes the fatal
shift-by-64 path instead of returning the triple. -/
theorem c1_counterexample :
    ((Flaken.default 0 0).with_epoch 0).with_bitwidths 0 10 = some gZero ∧
    gZero.epoch ≤ 0 ∧ 0 - gZero.epoch < 2 ^ gZero.bitwidths.1 ∧
    3 < 2 ^ gZero.bitwidths.2.1 ∧ 7 < 2 ^ gZero.bitwidths.2.2 ∧
    (gZero.encode 0 3 7).bind gZero.decode ≠ some (0, 3, 7) := by
  decide

/-- **C1** (amended): the round-trip law holds for every generator
whose bitwidths were accepted by the builders *and* have at least one
timestamp bit: for `ts ≥ epoch` within the timestamp field's range,
`id < 2^identifier_bits`, `seq < 2^sequence_bits`,
`decode (encode ts id seq) = (ts, id, seq)`. -/
theorem c1_round_trip (f : Flaken) (hWF : WFbits f.bitwidths)
    (ha : 1 ≤ f.bitwidths.1) (ts n s : Nat) (h1 : f.epoch ≤ ts) (h2 : ts < 2 ^ 64)
    (h3 : ts - f.epoch < 2 ^ f.bitwidths.1) (h4 : n < 2 ^ f.bitwidths.2.1)
    (h5 : s < 2 ^ f.bitwidths.2.2) :
    (f.encode ts n s).bind f.decode = some (ts, n, s) := by
  obtain ⟨hw1, hw2⟩ := hWF
  have hsum : f.bitwidths.1 + f.bitwidths.2.1 + f.bitwidths.2.2 = 64 := by omega
  rw [encode_closed f _ _ _ rfl hsum ha ts n s h1]
  simp only [Option.bind]
  rw [Nat.mod_eq_of_lt h3, Nat.mod_eq_of_lt h4, Nat.mod_eq_of_lt h5]
  obtain ⟨d1, d2, d3⟩ := digits3 (ts - f.epoch) n s _ _ h4 h5
  rw [decode_closed f _ _ _ rfl hsum ha _, d1, Nat.mod_eq_of_lt h3, d2, d3,
    Nat.sub_add_cancel h1, if_pos h2]

/-- Witness for `c1_round_trip` at a concrete generator and inputs. -/
theorem c1_round_trip_witness :
    (fW.encode 13 24 81).bind fW.decode = some (13, 24, 81) :=
  c1_round_trip fW (by decide) (by decide) 13 24 81 (by decide) (by decide)
    (by decide) (by decide) (by decide)

/-- **C3** (counterexample to the claim as stated): a 64-bit shift
amount does not only arise when `sequence_bits = 0`; it arises for the
builder-accepted bitwidths `(0, 10)` (where `sequence_bits = 54`),
because the first mask shifts by `node_bits + seq_bits = 64`, so the
shift-overflow branch *is* reachable. -/
theorem c3_counterexample :
    ((Flaken.default 0 0).with_epoch 0).with_bitwidths 0 10 = some gZero ∧
    gZero.bitwidths.2.2 = 54 ∧
    bitmask (gZero.bitwidths.2.1 + gZero.bitwidths.2.2) = none ∧
    gZero.encode 0 0 0 = none := by
  decide

/-- **C3** (amended): a shift amount of 0 produces an all-ones mask,
and for every generator with accepted bitwidths *whose timestamp field
is at least one bit wide* all mask constructions used by `encode` and
`decode` stay below a shift of 64, so the shift-overflow branch is not
taken. -/
theorem c3_no_shift_overflow (f : Flaken) (hWF : WFbits f.bitwidths)
    (ha : 1 ≤ f.bitwidths.1) :
    bitmask 0 = some (2 ^ 64 - 1) ∧
    (bitmask (f.bitwidths.2.1 + f.bitwidths.2.2)).isSome ∧
    (bitmask f.bitwidths.2.2).isSome := by
  obtain ⟨hw1, hw2⟩ := hWF
  refine ⟨by rw [bitmask_eq 0 (by omega)]; norm_num, ?_, ?_⟩
  · rw [bitmask_eq _ (by omega)]
    rfl
  · rw [bitmask_eq _ (by omega)]
    rfl

/-- Witness for `c3_no_shift_overflow` at a concrete generator. -/
theorem c3_no_shift_overflow_witness :
    bitmask 0 = some (2 ^ 64 - 1) ∧
    (bitmask (fW.bitwidths.2.1 + fW.bitwidths.2.2)).isSome ∧
    (bitmask fW.bitwidths.2.2).isSome :=
  c3_no_shift_overflow fW (by decide) (by decide)

/-- **C6** (counterexample to the claim as stated): for a
builder-reachable generator with `timestamp_bits = 0`, `encode` fails
fatally even though `ts ≥ epoch`, so "fails iff `ts < epoch`" does not
hold for every generator. -/
theorem c6_counterexample :
    ((Flaken.default 0 0).with_epoch 0).with_bitwidths 0 10 = some gZero ∧
    gZero.epoch ≤ 5 ∧ gZero.encode 5 0 0 = none := by
  decide

/-- **C6** (amended): for every generator with accepted bitwidths whose
timestamp field is at least one bit wide, `encode ts id seq` fails
fatally if and only if `ts < epoch`. -/
theorem c6_encode_fails_iff (f : Flaken) (hWF : WFbits f.bitwidths)
    (ha : 1 ≤ f.bitwidths.1) (ts n s : Nat) :
    (f.encode ts n s).isSome ↔ f.epoch ≤ ts := by
  obtain ⟨hw1, hw2⟩ := hWF
  have hsum : f.bitwidths.1 + f.bitwidths.2.1 + f.bitwidths.2.2 = 64 := by omega
  constructor
  · intro h
    rcases hE : f.encode ts n s with _ | id
    · rw [hE] at h
      exact absurd h (by simp)
    · exact (encode_some_facts f _ _ _ rfl hsum ts n s id hE).1
  · intro h
    rw [encode_closed f _ _ _ rfl hsum ha ts n s h]
    rfl

/-- Witness for `c6_encode_fails_iff` at a concrete generator. -/
theorem c6_encode_fails_iff_witness :
    (fW.encode 13 24 81).isSome ↔ fW.epoch ≤ 13 :=
  c6_encode_fails_iff fW (by decide) (by decide) 13 24 81

/-- **C7** (confirmed): `with_bitwidths ts_bits id_bits` fails fatally
iff `ts_bits + id_bits ≥ 64`; on success it stores
`(ts_bits, id_bits, 64 - ts_bits - id_bits)`, whose derived sequence
width is at least 1. -/
theorem c7_with_bitwidths (f : Flaken) (ts_bits node_bits : Nat) :
    ((f.with_bitwidths ts_bits node_bits).isSome ↔ ts_bits + node_bits < 64) ∧
    (ts_bits + node_bits < 64 →
      f.with_bitwidths ts_bits node_bits =
        some { f with bitwidths := (ts_bits, node_bits, 64 - (ts_bits + node_bits)) } ∧
      1 ≤ 64 - (ts_bits + node_bits)) := by
  unfold Flaken.with_bitwidths
  by_cases h : ts_bits + node_bits < 64
  · simp only [if_pos h]
    refine ⟨by simp [h], fun _ => ⟨by simp, by omega⟩⟩
  · simp only [if_neg h]
    exact ⟨by simp [h], fun hc => absurd hc h⟩

/-- Witness for `c7_with_bitwidths` at concrete inputs. -/
theorem c7_with_bitwidths_witness :
    ((fW.with_bitwidths 40 10).isSome ↔ 40 + 10 < 64) ∧
    (40 + 10 < 64 →
      fW.with_bitwidths 40 10 = some { fW with bitwidths := (40, 10, 14) } ∧
      1 ≤ 64 - (40 + 10)) :=
  c7_with_bitwidths fW 40 10

/-- **C2** (counterexample to the claim as stated): with default
bitwidths, epoch 0 and anchor 0, the calls at elapsed `2^42 - 1` and
`2^42` milliseconds both succeed, the clock does not regress and the
sequence counter never overflows, yet the second id (0) is smaller
than the first — the timestamp offset has outgrown its 42-bit field
and is silently truncated. -/
theorem c2_counterexample :
    fW.next (2 ^ 42 - 1) =
      some ({ fW with duration := 2 ^ 42 - 1, seq := 1 }, 2 ^ 64 - 2 ^ 22) ∧
    Flaken.next { fW with duration := 2 ^ 42 - 1, seq := 1 } (2 ^ 42) =
      some ({ fW with duration := 2 ^ 42, seq := 1 }, 0) ∧
    (2 ^ 42 - 1 : Nat) ≤ 2 ^ 42 ∧ (0 : Nat) + 1 < 2 ^ 12 ∧
    ¬ (2 ^ 64 - 2 ^ 22 : Nat) < 0 := by
  refine ⟨by decide, by decide, by decide, by decide, by decide⟩

/-- `encode` only reads `epoch` and `bitwidths`, so updating the
mutable generation state does not change it. -/
lemma encode_update (f : Flaken) (d s' ts n s : Nat) :
    Flaken.encode { f with duration := d, seq := s' } ts n s = f.encode ts n s := rfl

/-- **C2** (amended): for two successive `next` calls on the same
generator with a non-decreasing clock, if the sequence counter does
not overflow its bitwidth within one window *and* the elapsed
timestamp offset still fits the timestamp field, the second id is
strictly greater than the first. -/
theorem c2_monotonic (f f1 f2 : Flaken) (e1 e2 id1 id2 : Nat)
    (hWF : WFbits f.bitwidths)
    (h1 : f.next e1 = some (f1, id1)) (h2 : f1.next e2 = some (f2, id2))
    (he : e1 ≤ e2)
    (hseq : (if e1 ≠ f.duration then 0 else f.seq) + 1 < 2 ^ f.bitwidths.2.2)
    (hts : f.start_ts + e2 - f.epoch < 2 ^ f.bitwidths.1) :
    id1 < id2 := by
  obtain ⟨hw1, hw2⟩ := hWF
  have hsum : f.bitwidths.1 + f.bitwidths.2.1 + f.bitwidths.2.2 = 64 := by omega
  have hbwf : f.bitwidths = (f.bitwidths.1, f.bitwidths.2.1, f.bitwidths.2.2) := rfl
  obtain ⟨henc1, hf1⟩ := next_inv f f1 e1 id1 h1
  obtain ⟨hep1, ha⟩ := encode_some_facts f _ _ _ hbwf hsum _ _ _ _ henc1
  obtain ⟨henc2, -⟩ := next_inv f1 f2 e2 id2 h2
  have hd1 : f1.duration = e1 := by rw [hf1]
  have hq1 : f1.seq = (if e1 ≠ f.duration then 0 else f.seq) + 1 := by rw [hf1]
  have hst1 : f1.start_ts = f.start_ts := by rw [hf1]
  have hnd1 : f1.node = f.node := by rw [hf1]
  have hbwf1 : f1.bitwidths = (f.bitwidths.1, f.bitwidths.2.1, f.bitwidths.2.2) := by
    rw [hf1]
  have hepq : f1.epoch = f.epoch := by rw [hf1]
  rw [hst1, hnd1, hd1, hq1] at henc2
  obtain ⟨hep2, -⟩ := encode_some_facts f1 _ _ _ hbwf1 hsum _ _ _ _ henc2
  rw [hepq] at hep2
  rw [encode_closed f _ _ _ hbwf hsum ha _ _ _ hep1, Option.some.injEq] at henc1
  rw [encode_closed f1 _ _ _ hbwf1 hsum ha _ _ _ (hepq ▸ hep2), hepq,
    Option.some.injEq] at henc2
  have hC := Nat.two_pow_pos f.bitwidths.2.2
  have hB := Nat.two_pow_pos f.bitwidths.2.1
  have hK := Nat.two_pow_pos (f.bitwidths.2.1 + f.bitwidths.2.2)
  by_cases hee : e2 = e1
  · subst hee
    rw [if_neg (by omega : ¬ e2 ≠ e2)] at henc2
    have hS : (if e2 ≠ f.duration then 0 else f.seq) < 2 ^ f.bitwidths.2.2 := by omega
    rw [Nat.mod_eq_of_lt hS] at henc1
    rw [Nat.mod_eq_of_lt hseq] at henc2
    omega
  · rw [if_pos (by omega : e2 ≠ e1)] at henc2
    have hT2 : f.start_ts + e2 - f.epoch < 2 ^ f.bitwidths.1 := hts
    have hT1 : f.start_ts + e1 - f.epoch < 2 ^ f.bitwidths.1 := by omega
    rw [Nat.mod_eq_of_lt hT1] at henc1
    rw [Nat.mod_eq_of_lt hT2] at henc2
    have hrest : f.node % 2 ^ f.bitwidths.2.1 * 2 ^ f.bitwidths.2.2 +
        (if e1 ≠ f.duration then 0 else f.seq) % 2 ^ f.bitwidths.2.2 <
        2 ^ (f.bitwidths.2.1 + f.bitwidths.2.2) :=
      field_bound _ _ _ _ (Nat.mod_lt _ hB) (Nat.mod_lt _ hC)
    have hmul : (f.start_ts + e1 - f.epoch + 1) * 2 ^ (f.bitwidths.2.1 + f.bitwidths.2.2) ≤
        (f.start_ts + e2 - f.epoch) * 2 ^ (f.bitwidths.2.1 + f.bitwidths.2.2) :=
      Nat.mul_le_mul_right _ (by omega)
    have hexp : (f.start_ts + e1 - f.epoch + 1) * 2 ^ (f.bitwidths.2.1 + f.bitwidths.2.2) =
        (f.start_ts + e1 - f.epoch) * 2 ^ (f.bitwidths.2.1 + f.bitwidths.2.2) +
        2 ^ (f.bitwidths.2.1 + f.bitwidths.2.2) := by ring
    omega

/-- Witness for `c2_monotonic` at a concrete generator. -/
theorem c2_monotonic_witness :
    fW.next 0 = some (f1W, 0) ∧
    f1W.next 0 = some ({ fW with duration := 0, seq := 2 }, 1) ∧
    (0 : Nat) < 1 :=
  ⟨by decide, by decide,
    c2_monotonic fW f1W { fW with duration := 0, seq := 2 } 0 0 0 1
      (by decide) (by decide) (by decide) (by decide) (by decide) (by decide)⟩

/-- **C4** (counterexample to the claim as stated): `next` *can* fail:
with the default epoch (2013-01-01 in ms) and an anchor wall time
before it, `encode`'s `ts >= epoch` assertion fires from inside
`next`, so a fatal path *is* reachable depending on the configured
epoch relative to the anchor wall time. -/
theorem c4_counterexample : (Flaken.default 100 0).next 0 = none := by decide

/-- **C4** (amended): `next` returns an id whenever the anchor wall
time plus the elapsed reading does not precede the configured epoch,
the bitwidths are accepted with a nonzero timestamp width, and the
`u64` arithmetic does not overflow. -/
theorem c4_next_total (f : Flaken) (e : Nat) (hWF : WFbits f.bitwidths)
    (ha : 1 ≤ f.bitwidths.1) (hep : f.epoch ≤ f.start_ts + e)
    (h64 : f.start_ts + e < 2 ^ 64) (hseq : f.seq + 1 < 2 ^ 64) :
    (f.next e).isSome := by
  obtain ⟨hw1, hw2⟩ := hWF
  have hsum : f.bitwidths.1 + f.bitwidths.2.1 + f.bitwidths.2.2 = 64 := by omega
  have hbwf : f.bitwidths = (f.bitwidths.1, f.bitwidths.2.1, f.bitwidths.2.2) := rfl
  have hs0 : (if e ≠ f.duration then 0 else f.seq) + 1 < 2 ^ 64 := by
    split <;> omega
  simp only [Flaken.next]
  rw [if_pos h64, encode_closed f _ _ _ hbwf hsum ha _ _ _ hep]
  simp only []
  rw [if_pos hs0]
  rfl

/-- Witness for `c4_next_total` at a concrete generator. -/
theorem c4_next_total_witness : (fW.next 5).isSome :=
  c4_next_total fW 5 (by decide) (by decide) (by decide) (by decide) (by decide)

/-- **C5** (confirmed): `next` follows the specified step order: the
encoded value uses the pre-increment sequence (0 on a window change,
the stored counter otherwise), the encoded absolute timestamp is
`anchor_wall_time + e`, and afterwards `last_elapsed = e` and the
counter is one past the encoded value; on an immediately following
call in the same window the encoded sequence is one greater than the
previously encoded one. -/
theorem c5_next_steps (f f1 f2 : Flaken) (e1 e2 id1 id2 : Nat)
    (h1 : f.next e1 = some (f1, id1)) (h2 : f1.next e2 = some (f2, id2)) :
    f.encode (f.start_ts + e1) f.node (if e1 ≠ f.duration then 0 else f.seq) = some id1 ∧
    f1.duration = e1 ∧
    f1.seq = (if e1 ≠ f.duration then 0 else f.seq) + 1 ∧
    (e2 ≠ e1 → f1.encode (f1.start_ts + e2) f1.node 0 = some id2) ∧
    (e2 = e1 → f1.encode (f1.start_ts + e2) f1.node f1.seq = some id2) ∧
    f2.duration = e2 ∧
    f2.seq = (if e2 ≠ f1.duration then 0 else f1.seq) + 1 := by
  obtain ⟨henc1, hf1⟩ := next_inv f f1 e1 id1 h1
  obtain ⟨henc2, hf2⟩ := next_inv f1 f2 e2 id2 h2
  have hd1 : f1.duration = e1 := by rw [hf1]
  refine ⟨henc1, hd1, by rw [hf1], ?_, ?_, by rw [hf2], by rw [hf2]⟩
  · intro hne
    rw [if_pos (by rw [hd1]; exact hne)] at henc2
    exact henc2
  · intro heq
    rw [if_neg (by rw [hd1]; omega)] at henc2
    exact henc2

/-- Witness for `c5_next_steps` at a concrete generator. -/
theorem c5_next_steps_witness :
    fW.encode (fW.start_ts + 0) fW.node (if (0:Nat) ≠ fW.duration then 0 else fW.seq) = some 0 ∧
    f1W.duration = 0 ∧
    f1W.seq = (if (0:Nat) ≠ fW.duration then 0 else fW.seq) + 1 ∧
    ((1:Nat) ≠ 0 → f1W.encode (f1W.start_ts + 1) f1W.node 0 = some 4194304) ∧
    ((1:Nat) = 0 → f1W.encode (f1W.start_ts + 1) f1W.node f1W.seq = some 4194304) ∧
    ({ fW with duration := 1, seq := 1 } : Flaken).duration = 1 ∧
    ({ fW with duration := 1, seq := 1 } : Flaken).seq =
      (if (1:Nat) ≠ f1W.duration then 0 else f1W.seq) + 1 :=
  c5_next_steps fW f1W { fW with duration := 1, seq := 1 } 0 1 0 4194304
    (by decide) (by decide)

/-- **C8** (confirmed): encode silently truncates over-wide identifier
and sequence components to their field widths by masking, and whether
encode fails does not depend on those components. -/
theorem c8_truncation (f : Flaken) (hWF : WFbits f.bitwidths) (ts n s : Nat)
    (hts : f.epoch ≤ ts) (hn : n < 2 ^ 64) (hs : s < 2 ^ 64) :
    f.encode ts n s = f.encode ts (n % 2 ^ f.bitwidths.2.1) (s % 2 ^ f.bitwidths.2.2) ∧
    ((f.encode ts n s).isSome ↔ (f.encode ts 0 0).isSome) := by
  obtain ⟨hw1, hw2⟩ := hWF
  have hsum : f.bitwidths.1 + f.bitwidths.2.1 + f.bitwidths.2.2 = 64 := by omega
  have hbwf : f.bitwidths = (f.bitwidths.1, f.bitwidths.2.1, f.bitwidths.2.2) := rfl
  by_cases ha : 1 ≤ f.bitwidths.1
  · rw [encode_closed f _ _ _ hbwf hsum ha ts n s hts,
      encode_closed f _ _ _ hbwf hsum ha ts _ _ hts,
      encode_closed f _ _ _ hbwf hsum ha ts 0 0 hts]
    refine ⟨?_, by simp⟩
    rw [Nat.mod_mod_of_dvd n dvd_rfl, Nat.mod_mod_of_dvd s dvd_rfl]
  · have hbc : 64 ≤ f.bitwidths.2.1 + f.bitwidths.2.2 := by omega
    rw [encode_none_of_bc f _ _ _ hbwf hbc, encode_none_of_bc f _ _ _ hbwf hbc,
      encode_none_of_bc f _ _ _ hbwf hbc]
    exact ⟨rfl, Iff.rfl⟩

/-- Witness for `c8_truncation` at a concrete generator with over-wide
identifier (`1034 ≥ 2^10`) and sequence (`4097 ≥ 2^12`). -/
theorem c8_truncation_witness :
    fW.encode 13 1034 4097 =
      fW.encode 13 (1034 % 2 ^ fW.bitwidths.2.1) (4097 % 2 ^ fW.bitwidths.2.2) ∧
    ((fW.encode 13 1034 4097).isSome ↔ (fW.encode 13 0 0).isSome) :=
  c8_truncation fW (by decide) 13 1034 4097 (by decide) (by decide) (by decide)

/-- Recomposing a value from its three extracted digit fields. -/
lemma digits_recompose (x b c : Nat) :
    x / 2 ^ (b + c) * 2 ^ (b + c) + x / 2 ^ c % 2 ^ b * 2 ^ c + x % 2 ^ c = x := by
  have hKsplit : (2:Nat) ^ (b + c) = 2 ^ c * 2 ^ b := by
    rw [← Nat.pow_add, Nat.add_comm]
  have e1 := Nat.div_add_mod (x % 2 ^ (b + c)) (2 ^ c)
  have e2 : x % 2 ^ (b + c) / 2 ^ c = x / 2 ^ c % 2 ^ b := by
    rw [hKsplit, Nat.mod_mul_right_div_self]
  have e3 : x % 2 ^ (b + c) % 2 ^ c = x % 2 ^ c := by
    rw [hKsplit]
    exact Nat.mod_mod_of_dvd x (dvd_mul_right _ _)
  have e4 := Nat.div_add_mod x (2 ^ (b + c))
  calc x / 2 ^ (b + c) * 2 ^ (b + c) + x / 2 ^ c % 2 ^ b * 2 ^ c + x % 2 ^ c
      = 2 ^ (b + c) * (x / 2 ^ (b + c)) +
        (2 ^ c * (x % 2 ^ (b + c) / 2 ^ c) + x % 2 ^ (b + c) % 2 ^ c) := by
        rw [e2, e3]
        ring
    _ = 2 ^ (b + c) * (x / 2 ^ (b + c)) + x % 2 ^ (b + c) := by rw [e1]
    _ = x := e4

/-- **C10** (confirmed): re-encoding a successfully decoded triple
reproduces the id exactly. -/
theorem c10_reverse_round_trip (f : Flaken) (hWF : WFbits f.bitwidths)
    (id ts n s : Nat) (hid : id < 2 ^ 64) (h : f.decode id = some (ts, n, s)) :
    f.encode ts n s = some id := by
  obtain ⟨hw1, hw2⟩ := hWF
  have hsum : f.bitwidths.1 + f.bitwidths.2.1 + f.bitwidths.2.2 = 64 := by omega
  have hbwf : f.bitwidths = (f.bitwidths.1, f.bitwidths.2.1, f.bitwidths.2.2) := rfl
  by_cases ha : 1 ≤ f.bitwidths.1
  · rw [decode_closed f _ _ _ hbwf hsum ha id] at h
    by_cases h64 : id / 2 ^ (f.bitwidths.2.1 + f.bitwidths.2.2) % 2 ^ f.bitwidths.1 +
        f.epoch < 2 ^ 64
    · rw [if_pos h64] at h
      simp only [Option.some.injEq, Prod.mk.injEq] at h
      obtain ⟨hts, hn, hs⟩ := h
      subst hts hn hs
      rw [encode_closed f _ _ _ hbwf hsum ha _ _ _ (Nat.le_add_left _ _)]
      congr 1
      rw [Nat.add_sub_cancel, Nat.mod_mod_of_dvd _ dvd_rfl,
        Nat.mod_mod_of_dvd _ dvd_rfl, Nat.mod_mod_of_dvd _ dvd_rfl]
      have hdiv : id / 2 ^ (f.bitwidths.2.1 + f.bitwidths.2.2) < 2 ^ f.bitwidths.1 := by
        rw [Nat.div_lt_iff_lt_mul (Nat.two_pow_pos _), ← Nat.pow_add]
        have hq : f.bitwidths.1 + (f.bitwidths.2.1 + f.bitwidths.2.2) = 64 := by omega
        rw [hq]
        exact hid
      rw [Nat.mod_eq_of_lt hdiv]
      exact digits_recompose id f.bitwidths.2.1 f.bitwidths.2.2
    · rw [if_neg h64] at h
      exact Option.noConfusion h
  · rw [decode_none_of_bc f _ _ _ hbwf (by omega) id] at h
    exact Option.noConfusion h

/-- Witness for `c10_reverse_round_trip` at a concrete generator. -/
theorem c10_reverse_round_trip_witness :
    fW.decode 20481 = some (0, 5, 1) ∧ fW.encode 0 5 1 = some 20481 :=
  ⟨by decide,
    c10_reverse_round_trip fW (by decide) 20481 0 5 1 (by decide) (by decide)⟩

/-- **C9** (confirmed): each builder setter is a pure record update of
its own field (so the clock anchors, the counter and the last-elapsed
value are untouched), and changing the identifier between `next` calls
in the same window yields an id carrying the new identifier while the
sequence continues from its prior value. -/
theorem c9_frame (f g f1 f2 : Flaken) (v nn a b e id1 id2 : Nat)
    (hbw : f.with_bitwidths a b = some g)
    (h1 : f.next e = some (f1, id1))
    (h2 : (f1.with_node nn).next e = some (f2, id2)) :
    f.with_epoch v = { f with epoch := v } ∧
    f.with_node nn = { f with node := nn } ∧
    g = { f with bitwidths := (a, b, 64 - (a + b)) } ∧
    (f1.with_node nn).encode (f.start_ts + e) nn f1.seq = some id2 ∧
    f2.seq = f1.seq + 1 := by
  obtain ⟨henc1, hf1⟩ := next_inv f f1 e id1 h1
  obtain ⟨henc2, hf2⟩ := next_inv (f1.with_node nn) f2 e id2 h2
  have hd1 : f1.duration = e := by rw [hf1]
  have hwd : (f1.with_node nn).duration = e := hd1
  have hcond : ¬ (e ≠ (f1.with_node nn).duration) := by
    rw [hwd]
    omega
  refine ⟨rfl, rfl, ?_, ?_, ?_⟩
  · unfold Flaken.with_bitwidths at hbw
    by_cases h : a + b < 64
    · rw [if_pos h] at hbw
      exact ((Option.some.injEq _ _).mp hbw).symm
    · rw [if_neg h] at hbw
      exact Option.noConfusion hbw
  · rw [if_neg hcond] at henc2
    have hseqw : (f1.with_node nn).seq = f1.seq := rfl
    have hstw : (f1.with_node nn).start_ts = f.start_ts := by
      rw [hf1]
      rfl
    have hndw : (f1.with_node nn).node = nn := rfl
    rw [hseqw, hstw, hndw] at henc2
    exact henc2
  · rw [hf2]
    show (if e ≠ (f1.with_node nn).duration then 0 else (f1.with_node nn).seq) + 1 =
      f1.seq + 1
    rw [if_neg hcond]
    rfl

/-- Witness for `c9_frame` at a concrete generator. -/
theorem c9_frame_witness :
    fW.with_epoch 7 = { fW with epoch := 7 } ∧
    fW.with_node 5 = { fW with node := 5 } ∧
    ({ fW with bitwidths := (40, 10, 14) } : Flaken) =
      { fW with bitwidths := (40, 10, 64 - (40 + 10)) } ∧
    (f1W.with_node 5).encode (fW.start_ts + 0) 5 f1W.seq = some 20481 ∧
    ({ f1W.with_node 5 with duration := 0, seq := 2 } : Flaken).seq = f1W.seq + 1 :=
  c9_frame fW { fW with bitwidths := (40, 10, 14) } f1W
    { f1W.with_node 5 with duration := 0, seq := 2 } 7 5 40 10 0 0 20481
    (by decide) (by decide) (by decide)
